import Mathlib

/-!
Verification development for `src/libstd/lazy.rs` (`SyncOnceCell` / `SyncLazy`).

The control word `state_and_queue : AtomicUsize` of the source packs a 2-bit
state tag (`INCOMPLETE = 0x0`, `RUNNING = 0x1`, `COMPLETE = 0x2`) with, while
RUNNING, the address of the head of an intrusive singly-linked list of waiter
nodes.  We embed the word as a `Tag` together with the list of waiter
identifiers the pointer bits denote (head of the list = head of the intrusive
list = most recently enqueued waiter); this is exactly the information content
of the packed word given the 4-byte alignment of `Waiter`.

Two embeddings are developed over this shared encoding:
* a sequential (single-thread, state-passing) semantics of the public API
  (`get`, `set`, `get_or_init`, `get_or_try_init`, `into_inner`,
  `SyncLazy::force`), used for the claims about call/return behaviour, and
* a small-step interleaving semantics of the initialization protocol
  (`initialize_inner`, `wait`, `WaiterQueue::drop`), used for the claims about
  state-tag transitions, the slot invariant, and panic cleanup.
-/

namespace LazyOnce

/-! ## The control word -/

/-- The 2-bit state tag of `state_and_queue` (source lines 382-384). -/
inductive Tag where
  | incomplete
  | running
  | complete
deriving DecidableEq

/-- The control word: state tag plus the intrusive waiter list encoded in the
remaining pointer bits (head = most recently enqueued waiter).  The constants
`INCOMPLETE` and `COMPLETE` of the source are plain usizes, i.e. have empty
pointer bits. -/
structure Word where
  tag : Tag
  queue : List Nat
deriving DecidableEq

/-- The word constant `INCOMPLETE : usize = 0x0` (tag incomplete, no queue). -/
def INCOMPLETE : Word := ⟨.incomplete, []⟩

/-- The word constant `COMPLETE : usize = 0x2` (tag complete, no queue). -/
def COMPLETE : Word := ⟨.complete, []⟩

/-! ## Sequential embedding of `SyncOnceCell`

A cell is the control word together with the value slot
(`value: UnsafeCell<MaybeUninit<T>>`), embedded as an `Option`:
`none` = uninitialized memory, `some v` = a written value. -/

structure Cell (T : Type) where
  word : Word
  slot : Option T
deriving DecidableEq

variable {T E : Type}

/-- `SyncOnceCell::new` (lines 121-127): word `INCOMPLETE`, slot uninit. -/
def Cell.new : Cell T := ⟨INCOMPLETE, none⟩

/-- `is_initialized` (lines 323-329): the acquire load equals `COMPLETE`. -/
def Cell.is_initialized (c : Cell T) : Bool := c.word = COMPLETE

/-- `get` (lines 134-141): if initialized, read the slot (`get_unchecked`),
else `None`. -/
def Cell.get (c : Cell T) : Option T :=
  if c.is_initialized then c.slot else none

/-- Result of a computation handed to the initialization protocol: a value,
a recoverable error (`get_or_try_init`), or a panic with its message. -/
inductive CompResult (E T : Type) where
  | ok (v : T)
  | err (e : E)
  | panic (msg : String)
deriving DecidableEq

/-- Result of one sequential `get_or_try_init` call.  `panicked` is a panic
propagating out of the call; `blocked` marks the branches on which the single
sequential thread never returns (the tag-RUNNING reentrancy deadlock of
`wait`, unreachable from cells produced by this sequential API). -/
inductive SeqRes (E T : Type) where
  | ok (v : T)
  | err (e : E)
  | panicked (msg : String)
  | blocked
deriving DecidableEq

/-- Sequential semantics of `get_or_try_init` (lines 260-273) inlining
`initialize` (335-356) and the one-thread reduction of `initialize_inner`
(420-452), for a computation that may also panic.  Returns the call result,
the final cell, and whether the computation was executed.

One-thread reduction of `initialize_inner`: loading `COMPLETE` returns true
without running the closure; loading `INCOMPLETE` means the CAS to `RUNNING`
succeeds (no other thread can interfere), the closure runs, and the
`WaiterQueue` drop swaps the word to `COMPLETE` on success and back to
`INCOMPLETE` on failure or panic (its queue is empty: nobody enqueued).
Any other word has tag RUNNING, on which the single thread would enqueue
itself and park forever. -/
def getOrTryInitFull (c : Cell T) (f : Unit → CompResult E T) :
    SeqRes E T × Cell T × Bool :=
  match c.get with
  | some v => (.ok v, c, false)      -- fast path (lines 264-267)
  | none =>
    match c.word with
    | ⟨.complete, []⟩ =>
      -- initialize_inner sees COMPLETE, returns true; get_or_try_init then
      -- reads the slot via get_unchecked (line 272).  Reachable only for a
      -- cell whose slot is uninitialized while COMPLETE, which never arises.
      match c.slot with
      | some v => (.ok v, c, false)
      | none => (.blocked, c, false)
    | ⟨.incomplete, []⟩ =>
      match f () with
      | .ok v => (.ok v, ⟨COMPLETE, some v⟩, true)          -- slot written, drop swaps COMPLETE
      | .err e => (.err e, ⟨INCOMPLETE, c.slot⟩, true)      -- res = Err(e), drop swaps INCOMPLETE
      | .panic m => (.panicked m, ⟨INCOMPLETE, c.slot⟩, true) -- unwind runs drop, then propagates
    | _ => (.blocked, c, false)

/-- `get_or_try_init` (lines 260-273) for a non-panicking fallible
computation. -/
def getOrTryInit (c : Cell T) (f : Unit → Except E T) :
    SeqRes E T × Cell T × Bool :=
  getOrTryInitFull c (fun u =>
    match f u with
    | .ok v => .ok v
    | .error e => .err e)

/-- `get_or_init` (lines 221-228): `get_or_try_init(|| Ok::<T, !>(f()))`. -/
def getOrInit (c : Cell T) (f : Unit → T) : SeqRes Empty T × Cell T × Bool :=
  getOrTryInit c (fun u => Except.ok (f u))

/-- `set` (lines 182-189): `let mut value = Some(value);
self.get_or_init(|| value.take().unwrap());` then `Ok` iff `value` was taken.
The closure takes `value` exactly when it is executed, which the
instrumentation bit of `getOrInit` records. -/
def Cell.set (c : Cell T) (v : T) : Except T Unit × Cell T :=
  let r := getOrInit c (fun _ => v)
  let value : Option T := if r.2.2 then none else some v
  match value with
  | none => (Except.ok (), r.2.1)
  | some value => (Except.error value, r.2.1)

/-- `take_inner` (lines 308-319): if initialized, move the slot content out,
replacing it with uninitialized memory; else `None`. -/
def Cell.take_inner (c : Cell T) : Option T × Cell T :=
  if c.is_initialized then (c.slot, { c with slot := none }) else (none, c)

/-- `into_inner` (lines 293-301): `take_inner`, then free the remainder
without running its destructor (`ManuallyDrop`). -/
def Cell.into_inner (c : Cell T) : Option T := (c.take_inner).1

/-- `impl From<T> for SyncOnceCell<T>` (lines 100-106):
`let cell = Self::new(); cell.get_or_init(|| value); cell`. -/
def fromValue (v : T) : Cell T := (getOrInit Cell.new (fun _ => v)).2.1

/-- A cell holding value `v`: word `COMPLETE`, slot written. -/
def fullCell (v : T) : Cell T := ⟨COMPLETE, some v⟩

/-- The cells reachable through the sequential API: the empty cell or a full
one. -/
def SeqWF (c : Cell T) : Prop := c = Cell.new ∨ ∃ v, c = fullCell v

/-- Run a sequence of `get_or_init` calls on one cell, returning the final
cell and, per call, its result and whether its computation was executed. -/
def runCalls : Cell T → List (Unit → T) → Cell T × List (SeqRes Empty T × Bool)
  | c, [] => (c, [])
  | c, f :: fs =>
    let r := getOrInit c f
    let rest := runCalls r.2.1 fs
    (rest.1, (r.1, r.2.2) :: rest.2)

/-! ## Sequential embedding of `SyncLazy` -/

/-- `SyncLazy` (lines 516-519): a cell plus the initializer slot
`init: Cell<Option<F>>`. -/
structure SyncLazy (T : Type) where
  cell : Cell T
  init : Option (Unit → T)

/-- The panic message of `SyncLazy::force` (line 570). -/
def poisonMsg : String := "Lazy instance has previously been poisoned"

/-- `SyncLazy::force` (lines 567-572):
`this.cell.get_or_init(|| match this.init.take() { Some(f) => f(),
None => panic!("Lazy instance has previously been poisoned") })`.
The closure takes `init` exactly when it is executed. -/
def SyncLazy.force (l : SyncLazy T) : SeqRes Empty T × SyncLazy T :=
  let r := @getOrTryInitFull T Empty l.cell (fun _ =>
    match l.init with
    | some f => .ok (f ())
    | none => .panic poisonMsg)
  (r.1, ⟨r.2.1, if r.2.2 then none else l.init⟩)

/-! ## The waiter queue and `WaiterQueue::drop` -/

/-- A `Waiter` node (lines 388-393): the parked thread's handle (taken by the
waker), and the signaled flag.  The `next` pointer is represented by adjacency
in the queue list of the word. -/
structure Node where
  thread : Option Nat
  signaled : Bool
deriving DecidableEq

/-- The loop of `WaiterQueue::drop` (lines 407-416): walk the detached list
from the head; for each node take its thread handle, store `true` into its
signaled flag, advance, and unpark the taken handle.  Returns the updated
node states and the list of (node, taken handle) unpark events in the order
they happen. -/
def wakeAll : List Nat → (Nat → Node) → (Nat → Node) × List (Nat × Option Nat)
  | [], ns => (ns, [])
  | i :: rest, ns =>
    let h := (ns i).thread
    let ns1 := Function.update ns i ⟨none, true⟩
    let r := wakeAll rest ns1
    (r.1, (i, h) :: r.2)

/-- The final word written by the swap in `WaiterQueue::drop` for a given
`set_state_on_drop_to` tag: a bare tag with no queue bits. -/
def finalWord (t : Tag) : Word := ⟨t, []⟩

/-- `WaiterQueue::drop` (lines 400-418): one atomic swap installs
`set_state_on_drop_to` and hands back the old word, whose queue is thereby
detached; `assert_eq!(old & STATE_MASK, RUNNING)` aborts unless the old tag
was RUNNING (`none` here); then the detached list is walked by `wakeAll`. -/
def waiterQueueDrop (w : Word) (setStateOnDropTo : Tag) (ns : Nat → Node) :
    Option (Word × ((Nat → Node) × List (Nat × Option Nat))) :=
  if w.tag = .running then
    some (finalWord setStateOnDropTo, wakeAll w.queue ns)
  else none

/-- The word written by the successful CAS of `wait` (lines 460-467): the
node is linked in front of the old head (`next = old queue`), with tag
RUNNING. -/
def enqueuedWord (w : Word) (t : Nat) : Word := ⟨.running, t :: w.queue⟩

/-! ## Interleaving semantics of the initialization protocol

Each thread performs one `get_or_try_init` call with a fixed computation.
Panics are modelled as a computation outcome that makes the unwinding run the
`WaiterQueue` drop (with `set_state_on_drop_to` still `INCOMPLETE`) and then
propagates out of the call. -/

/-- The computation thread `t` passed to its `get_or_try_init` call. -/
inductive Comp (T : Type) where
  | succeed (v : T)
  | fail
  | panic (msg : String)
deriving DecidableEq

/-- How the installed initializer's computation ended: `success` writes the
slot and sets `set_state_on_drop_to = COMPLETE` (line 442); `failure` is
`Err(_)` from the computation; `panicked m` is a panic unwinding with
`set_state_on_drop_to` still at its initial `INCOMPLETE` (line 438). -/
inductive Outcome where
  | success
  | failure
  | panicked (msg : String)
deriving DecidableEq

/-- `set_state_on_drop_to` at the moment the `WaiterQueue` is dropped:
`COMPLETE` on success, `INCOMPLETE` on failure, and `INCOMPLETE` on a panic
(the field was initialized to `INCOMPLETE` on line 438 and is only updated
on the normal-return path, line 442). -/
def finalOf : Outcome → Tag
  | .success => .complete
  | .failure => .incomplete
  | .panicked _ => .incomplete

/-- What a thread's `get_or_try_init` call returned: a reference to the
stored value, the error of its own failed computation, or a propagated
panic. -/
inductive Res (T : Type) where
  | ok (v : T)
  | errored
  | panicked (msg : String)
deriving DecidableEq

/-- Control state of one thread inside `get_or_try_init`:
* `start`: about to load `state_and_queue` (fast path of `get_or_try_init`
  or top of the `initialize_inner` loop, both an acquire load);
* `tryCas`: loaded `INCOMPLETE`, about to CAS it to `RUNNING` (line 427);
* `runInit`: won the CAS, the `WaiterQueue` guard is live
  (`set_state_on_drop_to = INCOMPLETE`), about to run the computation;
* `finishing o`: computation finished with outcome `o`, about to run the
  drop of the `WaiterQueue` (its swap);
* `waking o rest`: swap done, walking the remaining detached waiter list;
* `waitEnqueue seen`: inside `wait` with loaded word `seen` (tag RUNNING),
  node built, about to CAS-link it as the new head (line 467);
* `parked`: linked in, parked until its node's signaled flag is observed;
* `done r`: returned from the call (or unwound out of it) with `r`. -/
inductive TState (T : Type) where
  | start
  | tryCas
  | runInit
  | finishing (o : Outcome)
  | waking (o : Outcome) (rest : List Nat)
  | waitEnqueue (seen : Word)
  | parked
  | done (r : Res T)
deriving DecidableEq

/-- Global state: the control word, the value slot, each thread's control
state, and each waiter node's fields (thread `t` uses node `t`, the node on
its stack). -/
structure Sys (T : Type) where
  word : Word
  slot : Option T
  threads : Nat → TState T
  nodes : Nat → Node

/-- Update one thread's control state. -/
def Sys.setThread (s : Sys T) (t : Nat) (st : TState T) : Sys T :=
  { s with threads := Function.update s.threads t st }

/-- The initial system: a fresh cell (`INCOMPLETE`, uninitialized slot), all
threads about to make their call. -/
def initSys : Sys T :=
  { word := INCOMPLETE
    slot := none
    threads := fun _ => .start
    nodes := fun _ => ⟨none, false⟩ }

/-- One atomic step of the protocol, for the per-thread computations
`comps`.  Each constructor is one atomic access of the source, annotated
with the lines it embeds. -/
inductive Step (comps : Nat → Comp T) : Sys T → Sys T → Prop where
  /-- Load sees `COMPLETE` (line 328 or 425): the call returns a reference
  to the slot (`get_unchecked`, line 272, after observing COMPLETE). -/
  | loadComplete (s : Sys T) (t : Nat) (v : T)
      (h : s.threads t = .start) (hw : s.word = COMPLETE) (hv : s.slot = some v) :
      Step comps s (s.setThread t (.done (.ok v)))
  /-- Load sees `INCOMPLETE` (line 426): try the CAS. -/
  | loadIncomplete (s : Sys T) (t : Nat)
      (h : s.threads t = .start) (hw : s.word = INCOMPLETE) :
      Step comps s (s.setThread t .tryCas)
  /-- Load sees tag RUNNING (lines 445-447): go wait, remembering the loaded
  word. -/
  | loadRunning (s : Sys T) (t : Nat)
      (h : s.threads t = .start) (hw : s.word.tag = .running) :
      Step comps s (s.setThread t (.waitEnqueue s.word))
  /-- The CAS `INCOMPLETE → RUNNING` succeeds (lines 427-431): this thread
  becomes the sole initializer and creates the `WaiterQueue` guard. -/
  | casWin (s : Sys T) (t : Nat)
      (h : s.threads t = .tryCas) (hw : s.word = INCOMPLETE) :
      Step comps s
        { s with word := ⟨.running, []⟩
                 threads := Function.update s.threads t .runInit }
  /-- The CAS fails with old value `COMPLETE` (lines 432-434, then the loop
  matches COMPLETE): return a reference to the slot. -/
  | casSeeComplete (s : Sys T) (t : Nat) (v : T)
      (h : s.threads t = .tryCas) (hw : s.word = COMPLETE) (hv : s.slot = some v) :
      Step comps s (s.setThread t (.done (.ok v)))
  /-- The CAS fails with an old value of tag RUNNING: go wait on it. -/
  | casSeeRunning (s : Sys T) (t : Nat)
      (h : s.threads t = .tryCas) (hw : s.word.tag = .running) :
      Step comps s (s.setThread t (.waitEnqueue s.word))
  /-- The initializer's computation returns `Ok(v)` (lines 344-348): the
  value is written into the slot and the closure returns true, so
  `set_state_on_drop_to` becomes `COMPLETE` (line 442). -/
  | runSucceed (s : Sys T) (t : Nat) (v : T)
      (h : s.threads t = .runInit) (hc : comps t = .succeed v) :
      Step comps s
        { s with slot := some v
                 threads := Function.update s.threads t (.finishing .success) }
  /-- The initializer's computation returns `Err(e)` (lines 349-352): the
  closure returns false, `set_state_on_drop_to` stays `INCOMPLETE`. -/
  | runFail (s : Sys T) (t : Nat)
      (h : s.threads t = .runInit) (hc : comps t = .fail) :
      Step comps s (s.setThread t (.finishing .failure))
  /-- The initializer's computation panics: unwinding begins; the
  `WaiterQueue` guard will still be dropped with `set_state_on_drop_to`
  at its initial `INCOMPLETE`. -/
  | runPanic (s : Sys T) (t : Nat) (m : String)
      (h : s.threads t = .runInit) (hc : comps t = .panic m) :
      Step comps s (s.setThread t (.finishing (.panicked m)))
  /-- The swap of `WaiterQueue::drop` (lines 402-403): one atomic swap
  installs the final word and detaches the entire current queue. -/
  | dropSwap (s : Sys T) (t : Nat) (o : Outcome)
      (h : s.threads t = .finishing o) :
      Step comps s
        { s with word := finalWord (finalOf o)
                 threads := Function.update s.threads t (.waking o s.word.queue) }
  /-- One iteration of the wake loop (lines 409-415): take the head node's
  thread handle, set its signaled flag, advance, unpark. -/
  | wakeOne (s : Sys T) (t : Nat) (o : Outcome) (i : Nat) (rest : List Nat)
      (h : s.threads t = .waking o (i :: rest)) :
      Step comps s
        { s with nodes := Function.update s.nodes i ⟨none, true⟩
                 threads := Function.update s.threads t (.waking o rest) }
  /-- Wake loop over, success: `initialize_inner` returns true, `initialize`
  returns `Ok(())`, and `get_or_try_init` reads the slot (line 272). -/
  | wakeRetSuccess (s : Sys T) (t : Nat) (v : T)
      (h : s.threads t = .waking .success []) (hv : s.slot = some v) :
      Step comps s (s.setThread t (.done (.ok v)))
  /-- Wake loop over, failure: `initialize` returns the captured `Err(e)`,
  which `get_or_try_init` propagates with `?` (line 268). -/
  | wakeRetFailure (s : Sys T) (t : Nat)
      (h : s.threads t = .waking .failure []) :
      Step comps s (s.setThread t (.done .errored))
  /-- Wake loop over during unwinding: the panic keeps propagating out of
  the call, unchanged. -/
  | wakeRetPanicked (s : Sys T) (t : Nat) (m : String)
      (h : s.threads t = .waking (.panicked m) []) :
      Step comps s (s.setThread t (.done (.panicked m)))
  /-- The CAS of `wait` succeeds (line 467): the node (fresh handle,
  signaled false, next = old head) becomes the new head; the thread parks. -/
  | enqueue (s : Sys T) (t : Nat) (seen : Word)
      (h : s.threads t = .waitEnqueue seen) (hw : s.word = seen) :
      Step comps s
        { s with word := enqueuedWord seen t
                 nodes := Function.update s.nodes t ⟨some t, false⟩
                 threads := Function.update s.threads t .parked }
  /-- The CAS of `wait` fails and the fresh word still has tag RUNNING
  (lines 468-471 back to 456): rebuild the node against the new head. -/
  | enqueueRetry (s : Sys T) (t : Nat) (seen : Word)
      (h : s.threads t = .waitEnqueue seen) (hne : s.word ≠ seen)
      (hw : s.word.tag = .running) :
      Step comps s (s.setThread t (.waitEnqueue s.word))
  /-- The CAS of `wait` fails and the fresh word is no longer RUNNING
  (line 456-458): `wait` returns; `initialize_inner` reloads. -/
  | enqueueGiveUp (s : Sys T) (t : Nat) (seen : Word)
      (h : s.threads t = .waitEnqueue seen) (hne : s.word ≠ seen)
      (hw : s.word.tag ≠ .running) :
      Step comps s (s.setThread t .start)
  /-- A parked thread observes its signaled flag (lines 473-475) and returns
  from `wait`; `initialize_inner` reloads. -/
  | unparkCheck (s : Sys T) (t : Nat)
      (h : s.threads t = .parked) (hs : (s.nodes t).signaled = true) :
      Step comps s (s.setThread t .start)

/-- States reachable from the fresh cell. -/
def Reachable (comps : Nat → Comp T) (s : Sys T) : Prop :=
  Relation.ReflTransGen (Step comps) initSys s

/-- A thread currently holding initializer status: it won the CAS and has
not yet performed the drop swap. -/
def IsOwner (s : Sys T) (t : Nat) : Prop :=
  s.threads t = .runInit ∨ ∃ o, s.threads t = .finishing o

/-- Quiescence for the slot invariant: no thread is mid-initialization
(between winning the CAS and completing the drop swap). -/
def Quiescent (s : Sys T) : Prop := ∀ t, ¬ IsOwner s t

/-- The protocol invariant:
* an owner exists only while the tag is RUNNING, and is unique;
* an initializer that succeeded has written the slot;
* tag COMPLETE implies the slot is written;
* a written slot means tag COMPLETE or a success initializer between its
  slot write and its drop swap;
* a waiting thread's remembered word has tag RUNNING;
* a successful initializer past its swap sees tag COMPLETE. -/
structure Inv (s : Sys T) : Prop where
  owner_running : ∀ t, IsOwner s t → s.word.tag = .running
  owner_unique : ∀ t u, IsOwner s t → IsOwner s u → t = u
  success_slot : ∀ t, s.threads t = .finishing .success → s.slot.isSome
  complete_slot : s.word.tag = .complete → s.slot.isSome
  slot_complete : s.slot.isSome →
    s.word.tag = .complete ∨ ∃ t, s.threads t = .finishing .success
  seen_running : ∀ t w, s.threads t = .waitEnqueue w → w.tag = .running
  waking_success : ∀ t rest, s.threads t = .waking .success rest →
    s.word.tag = .complete

/-! ## Concrete instances used by witnesses and counterexamples -/

/-- Two concrete computations for a sequence of `get_or_init` calls. -/
def fs0 : List (Unit → Nat) := [fun _ => 92, fun _ => 1000]

/-- A concrete failing computation (the spec scenario). -/
def fBoom : Unit → Except String Nat := fun _ => Except.error "boom"

/-- A concrete succeeding computation (the spec scenario). -/
def gOk : Unit → Except String Nat := fun _ => Except.ok 92

/-- A poisoned lazy value: computation already taken, cell still empty. -/
def lazyPoisoned : SyncLazy Nat := ⟨Cell.new, none⟩

/-- Computation assignment where every thread's computation succeeds with 7. -/
def comps0 : Nat → Comp Nat := fun _ => .succeed 7

/-- Computation assignment where every thread's computation panics. -/
def comps1 : Nat → Comp Nat := fun _ => .panic "boom"

/-- After thread 0 loaded `INCOMPLETE`. -/
def sysA : Sys Nat := (@initSys Nat).setThread 0 .tryCas

/-- After thread 0 won the CAS: the sole initializer, tag RUNNING. -/
def sysB : Sys Nat :=
  { sysA with word := ⟨.running, []⟩
              threads := Function.update sysA.threads 0 .runInit }

/-- After thread 0's computation succeeded: slot written, tag still RUNNING
(the window before the drop swap). -/
def sysWindow : Sys Nat :=
  { sysB with slot := some 7
              threads := Function.update sysB.threads 0 (.finishing .success) }

/-- A concrete RUNNING word with two queued waiters. -/
def w0 : Word := ⟨.running, [4, 8]⟩

/-- A concrete node map: node `i` holds thread handle `i`, not signaled. -/
def ns0 : Nat → Node := fun i => ⟨some i, false⟩

/-! ## Helper lemmas -/

@[simp]
theorem setThread_word (s : Sys T) (t : Nat) (st : TState T) :
    (s.setThread t st).word = s.word := rfl

@[simp]
theorem setThread_slot (s : Sys T) (t : Nat) (st : TState T) :
    (s.setThread t st).slot = s.slot := rfl

@[simp]
theorem setThread_nodes (s : Sys T) (t : Nat) (st : TState T) :
    (s.setThread t st).nodes = s.nodes := rfl

@[simp]
theorem setThread_threads (s : Sys T) (t : Nat) (st : TState T) :
    (s.setThread t st).threads = Function.update s.threads t st := rfl

theorem inv_initSys : Inv (@initSys T) := by
  refine ⟨?_, ?_, ?_, ?_, ?_, ?_, ?_⟩
  · intro t ht
    rcases ht with h | ⟨o, h⟩ <;> simp [initSys] at h
  · intro t u ht hu
    rcases ht with h | ⟨o, h⟩ <;> simp [initSys] at h
  · intro t h
    simp [initSys] at h
  · intro h
    simp [initSys, INCOMPLETE] at h
  · intro h
    simp [initSys] at h
  · intro t w h
    simp [initSys] at h
  · intro t rest h
    simp [initSys] at h

/-- Invariant preservation for steps that only rewrite one thread's control
state to a non-owner state (and possibly the node map), leaving word and
slot untouched. -/
theorem inv_update_aux {s : Sys T} (hInv : Inv s) (t : Nat) (st : TState T)
    (ns : Nat → Node)
    (hno1 : st ≠ .runInit) (hno2 : ∀ o, st ≠ .finishing o)
    (hpre : s.threads t ≠ .finishing .success)
    (hseen : ∀ w, st = .waitEnqueue w → w.tag = .running)
    (hwak : ∀ o rest, st = .waking o rest → o = .success → s.word.tag = .complete) :
    Inv (Sys.mk s.word s.slot (Function.update s.threads t st) ns) := by
  refine ⟨?_, ?_, ?_, ?_, ?_, ?_, ?_⟩
  · intro u hu
    rcases eq_or_ne u t with rfl | hne
    · rcases hu with h | ⟨o, h⟩
      · rw [show (Sys.mk s.word s.slot (Function.update s.threads u st) ns).threads = Function.update s.threads u st from rfl, Function.update_same] at h
        exact absurd h hno1
      · rw [show (Sys.mk s.word s.slot (Function.update s.threads u st) ns).threads = Function.update s.threads u st from rfl, Function.update_same] at h
        exact absurd h (hno2 o)
    · refine hInv.owner_running u ?_
      rcases hu with h | ⟨o, h⟩
      · rw [show (Sys.mk s.word s.slot (Function.update s.threads t st) ns).threads = Function.update s.threads t st from rfl, Function.update_noteq hne] at h
        exact Or.inl h
      · rw [show (Sys.mk s.word s.slot (Function.update s.threads t st) ns).threads = Function.update s.threads t st from rfl, Function.update_noteq hne] at h
        exact Or.inr ⟨o, h⟩
  · intro u u' hu hu'
    have notT : ∀ x, IsOwner (Sys.mk s.word s.slot (Function.update s.threads t st) ns) x → x ≠ t → IsOwner s x := by
      intro x hx hxt
      rcases hx with h | ⟨o, h⟩
      · rw [show (Sys.mk s.word s.slot (Function.update s.threads t st) ns).threads = Function.update s.threads t st from rfl, Function.update_noteq hxt] at h
        exact Or.inl h
      · rw [show (Sys.mk s.word s.slot (Function.update s.threads t st) ns).threads = Function.update s.threads t st from rfl, Function.update_noteq hxt] at h
        exact Or.inr ⟨o, h⟩
    have hTnot : ¬ IsOwner (Sys.mk s.word s.slot (Function.update s.threads t st) ns) t := by
      intro hx
      rcases hx with h | ⟨o, h⟩
      · rw [show (Sys.mk s.word s.slot (Function.update s.threads t st) ns).threads = Function.update s.threads t st from rfl, Function.update_same] at h
        exact absurd h hno1
      · rw [show (Sys.mk s.word s.slot (Function.update s.threads t st) ns).threads = Function.update s.threads t st from rfl, Function.update_same] at h
        exact absurd h (hno2 o)
    rcases eq_or_ne u t with rfl | hut
    · exact absurd hu hTnot
    rcases eq_or_ne u' t with rfl | hut'
    · exact absurd hu' hTnot
    exact hInv.owner_unique u u' (notT u hu hut) (notT u' hu' hut')
  · intro u h
    rcases eq_or_ne u t with rfl | hne
    · rw [show (Sys.mk s.word s.slot (Function.update s.threads u st) ns).threads = Function.update s.threads u st from rfl, Function.update_same] at h
      exact absurd h (hno2 .success)
    · rw [show (Sys.mk s.word s.slot (Function.update s.threads t st) ns).threads = Function.update s.threads t st from rfl, Function.update_noteq hne] at h
      exact hInv.success_slot u h
  · exact hInv.complete_slot
  · intro h
    rcases hInv.slot_complete h with h1 | ⟨u, hu⟩
    · exact Or.inl h1
    · rcases eq_or_ne u t with rfl | hne
      · exact absurd hu hpre
      · refine Or.inr ⟨u, ?_⟩
        rw [show (Sys.mk s.word s.slot (Function.update s.threads t st) ns).threads = Function.update s.threads t st from rfl, Function.update_noteq hne]
        exact hu
  · intro u w h
    rcases eq_or_ne u t with rfl | hne
    · rw [show (Sys.mk s.word s.slot (Function.update s.threads u st) ns).threads = Function.update s.threads u st from rfl, Function.update_same] at h
      exact hseen w h
    · rw [show (Sys.mk s.word s.slot (Function.update s.threads t st) ns).threads = Function.update s.threads t st from rfl, Function.update_noteq hne] at h
      exact hInv.seen_running u w h
  · intro u rest h
    rcases eq_or_ne u t with rfl | hne
    · rw [show (Sys.mk s.word s.slot (Function.update s.threads u st) ns).threads = Function.update s.threads u st from rfl, Function.update_same] at h
      exact hwak .success rest h rfl
    · rw [show (Sys.mk s.word s.slot (Function.update s.threads t st) ns).threads = Function.update s.threads t st from rfl, Function.update_noteq hne] at h
      exact hInv.waking_success u rest h

/-- Invariant preservation for the two ways the initializer's computation can
end without writing the slot (failure and panic): the owner moves from
`runInit` to a non-success `finishing`, everything else unchanged. -/
theorem inv_run_end {s : Sys T} (hInv : Inv s) (t : Nat) (o : Outcome)
    (hst : s.threads t = .runInit) (hns : o ≠ .success) :
    Inv (s.setThread t (.finishing o)) := by
  have howner : IsOwner s t := Or.inl hst
  have htag := hInv.owner_running t howner
  have hthreads : ∀ u, u ≠ t → (s.setThread t (.finishing o)).threads u = s.threads u := by
    intro u hu
    simp [Function.update_noteq hu]
  have hthreadt : (s.setThread t (.finishing o)).threads t = .finishing o := by
    simp
  refine ⟨?_, ?_, ?_, ?_, ?_, ?_, ?_⟩
  · intro u hu
    exact htag
  · intro u u' hu hu'
    have toPre : ∀ x, IsOwner (s.setThread t (.finishing o)) x → IsOwner s x := by
      intro x hx
      rcases eq_or_ne x t with rfl | hne
      · exact howner
      · rcases hx with h | ⟨o', h⟩
        · rw [hthreads x hne] at h
          exact Or.inl h
        · rw [hthreads x hne] at h
          exact Or.inr ⟨o', h⟩
    exact hInv.owner_unique u u' (toPre u hu) (toPre u' hu')
  · intro u h
    rcases eq_or_ne u t with rfl | hne
    · rw [hthreadt] at h
      cases h
      exact absurd rfl hns
    · rw [hthreads u hne] at h
      exact hInv.success_slot u h
  · intro h
    rw [setThread_word] at h
    rw [htag] at h
    cases h
  · intro h
    rw [setThread_slot] at h
    rcases hInv.slot_complete h with h1 | ⟨u, hu⟩
    · exact Or.inl h1
    · rcases eq_or_ne u t with rfl | hne
      · rw [hst] at hu
        cases hu
      · exact Or.inr ⟨u, by rw [hthreads u hne]; exact hu⟩
  · intro u w h
    rcases eq_or_ne u t with rfl | hne
    · rw [hthreadt] at h
      cases h
    · rw [hthreads u hne] at h
      exact hInv.seen_running u w h
  · intro u rest h
    rcases eq_or_ne u t with rfl | hne
    · rw [hthreadt] at h
      cases h
    · rw [hthreads u hne] at h
      have := hInv.waking_success u rest h
      rw [setThread_word]
      exact this

/-- The protocol invariant is preserved by every step. -/
theorem inv_step {comps : Nat → Comp T} {s s' : Sys T}
    (hInv : Inv s) (h : Step comps s s') : Inv s' := by
  cases h with
  | loadComplete t v hst hw hv =>
    refine inv_update_aux hInv t _ _ (by simp) (by simp) (by rw [hst]; simp) ?_ ?_
    · intro w hww
      cases hww
    · intro o rest hww
      cases hww
  | loadIncomplete t hst hw =>
    refine inv_update_aux hInv t _ _ (by simp) (by simp) (by rw [hst]; simp) ?_ ?_
    · intro w hww
      cases hww
    · intro o rest hww
      cases hww
  | loadRunning t hst hw =>
    refine inv_update_aux hInv t _ _ (by simp) (by simp) (by rw [hst]; simp) ?_ ?_
    · intro w hww
      injection hww with h2
      exact h2 ▸ hw
    · intro o rest hww
      cases hww
  | casWin t hst hw =>
    have noOwnerPre : ∀ u, ¬ IsOwner s u := by
      intro u hu
      have := hInv.owner_running u hu
      rw [hw] at this
      cases this
    have hthreads : ∀ u, u ≠ t →
        (Function.update s.threads t TState.runInit) u = s.threads u := by
      intro u hu
      simp [Function.update_noteq hu]
    refine ⟨?_, ?_, ?_, ?_, ?_, ?_, ?_⟩
    · intro u hu
      rfl
    · intro u u' hu hu'
      have toT : ∀ x, IsOwner { s with word := ⟨.running, []⟩, threads := Function.update s.threads t .runInit } x → x = t := by
        intro x hx
        by_contra hne
        have : IsOwner s x := by
          rcases hx with h1 | ⟨o, h1⟩
          · rw [show ({ s with word := ⟨Tag.running, []⟩, threads := Function.update s.threads t .runInit } : Sys T).threads = Function.update s.threads t .runInit from rfl, hthreads x hne] at h1
            exact Or.inl h1
          · rw [show ({ s with word := ⟨Tag.running, []⟩, threads := Function.update s.threads t .runInit } : Sys T).threads = Function.update s.threads t .runInit from rfl, hthreads x hne] at h1
            exact Or.inr ⟨o, h1⟩
        exact noOwnerPre x this
      rw [toT u hu, toT u' hu']
    · intro u h
      rcases eq_or_ne u t with rfl | hne
      · rw [show ({ s with word := ⟨Tag.running, []⟩, threads := Function.update s.threads u .runInit } : Sys T).threads = Function.update s.threads u .runInit from rfl, Function.update_same] at h
        cases h
      · rw [show ({ s with word := ⟨Tag.running, []⟩, threads := Function.update s.threads t .runInit } : Sys T).threads = Function.update s.threads t .runInit from rfl, hthreads u hne] at h
        exact absurd (Or.inr ⟨.success, h⟩) (noOwnerPre u)
    · intro h
      cases h
    · intro h
      rcases hInv.slot_complete h with h1 | ⟨u, hu⟩
      · rw [hw] at h1
        cases h1
      · exact absurd (Or.inr ⟨.success, hu⟩) (noOwnerPre u)
    · intro u w h
      rcases eq_or_ne u t with rfl | hne
      · rw [show ({ s with word := ⟨Tag.running, []⟩, threads := Function.update s.threads u .runInit } : Sys T).threads = Function.update s.threads u .runInit from rfl, Function.update_same] at h
        cases h
      · rw [show ({ s with word := ⟨Tag.running, []⟩, threads := Function.update s.threads t .runInit } : Sys T).threads = Function.update s.threads t .runInit from rfl, hthreads u hne] at h
        exact hInv.seen_running u w h
    · intro u rest h
      rcases eq_or_ne u t with rfl | hne
      · rw [show ({ s with word := ⟨Tag.running, []⟩, threads := Function.update s.threads u .runInit } : Sys T).threads = Function.update s.threads u .runInit from rfl, Function.update_same] at h
        cases h
      · rw [show ({ s with word := ⟨Tag.running, []⟩, threads := Function.update s.threads t .runInit } : Sys T).threads = Function.update s.threads t .runInit from rfl, hthreads u hne] at h
        have := hInv.waking_success u rest h
        rw [hw] at this
        cases this
  | casSeeComplete t v hst hw hv =>
    refine inv_update_aux hInv t _ _ (by simp) (by simp) (by rw [hst]; simp) ?_ ?_
    · intro w hww
      cases hww
    · intro o rest hww
      cases hww
  | casSeeRunning t hst hw =>
    refine inv_update_aux hInv t _ _ (by simp) (by simp) (by rw [hst]; simp) ?_ ?_
    · intro w hww
      injection hww with h2
      exact h2 ▸ hw
    · intro o rest hww
      cases hww
  | runSucceed t v hst hc =>
    have howner : IsOwner s t := Or.inl hst
    have htag := hInv.owner_running t howner
    have hthreads : ∀ u, u ≠ t →
        (Function.update s.threads t (TState.finishing .success)) u = s.threads u := by
      intro u hu
      simp [Function.update_noteq hu]
    refine ⟨?_, ?_, ?_, ?_, ?_, ?_, ?_⟩
    · intro u hu
      exact htag
    · intro u u' hu hu'
      have toPre : ∀ x, IsOwner { s with slot := some v, threads := Function.update s.threads t (.finishing .success) } x → IsOwner s x := by
        intro x hx
        rcases eq_or_ne x t with rfl | hne
        · exact howner
        · rcases hx with h1 | ⟨o, h1⟩
          · rw [show ({ s with slot := some v, threads := Function.update s.threads t (.finishing .success) } : Sys T).threads = Function.update s.threads t (.finishing .success) from rfl, hthreads x hne] at h1
            exact Or.inl h1
          · rw [show ({ s with slot := some v, threads := Function.update s.threads t (.finishing .success) } : Sys T).threads = Function.update s.threads t (.finishing .success) from rfl, hthreads x hne] at h1
            exact Or.inr ⟨o, h1⟩
      exact hInv.owner_unique u u' (toPre u hu) (toPre u' hu')
    · intro u h
      simp
    · intro h
      simp
    · intro h
      refine Or.inr ⟨t, ?_⟩
      rw [show ({ s with slot := some v, threads := Function.update s.threads t (.finishing .success) } : Sys T).threads = Function.update s.threads t (.finishing .success) from rfl, Function.update_same]
    · intro u w h
      rcases eq_or_ne u t with rfl | hne
      · rw [show ({ s with slot := some v, threads := Function.update s.threads u (.finishing .success) } : Sys T).threads = Function.update s.threads u (.finishing .success) from rfl, Function.update_same] at h
        cases h
      · rw [show ({ s with slot := some v, threads := Function.update s.threads t (.finishing .success) } : Sys T).threads = Function.update s.threads t (.finishing .success) from rfl, hthreads u hne] at h
        exact hInv.seen_running u w h
    · intro u rest h
      rcases eq_or_ne u t with rfl | hne
      · rw [show ({ s with slot := some v, threads := Function.update s.threads u (.finishing .success) } : Sys T).threads = Function.update s.threads u (.finishing .success) from rfl, Function.update_same] at h
        cases h
      · rw [show ({ s with slot := some v, threads := Function.update s.threads t (.finishing .success) } : Sys T).threads = Function.update s.threads t (.finishing .success) from rfl, hthreads u hne] at h
        have := hInv.waking_success u rest h
        rw [htag] at this
        cases this
  | runFail t hst hc =>
    exact inv_run_end hInv t .failure hst (by simp)
  | runPanic t m hst hc =>
    exact inv_run_end hInv t (.panicked m) hst (by simp)
  | dropSwap t o hst =>
    have howner : IsOwner s t := Or.inr ⟨o, hst⟩
    have htag := hInv.owner_running t howner
    have hthreads : ∀ u, u ≠ t →
        (Function.update s.threads t (TState.waking o s.word.queue)) u = s.threads u := by
      intro u hu
      simp [Function.update_noteq hu]
    have noOwnerPost : ∀ x, ¬ IsOwner { s with word := finalWord (finalOf o), threads := Function.update s.threads t (.waking o s.word.queue) } x := by
      intro x hx
      rcases eq_or_ne x t with rfl | hne
      · rcases hx with h1 | ⟨o', h1⟩
        · rw [show ({ s with word := finalWord (finalOf o), threads := Function.update s.threads x (.waking o s.word.queue) } : Sys T).threads = Function.update s.threads x (.waking o s.word.queue) from rfl, Function.update_same] at h1
          cases h1
        · rw [show ({ s with word := finalWord (finalOf o), threads := Function.update s.threads x (.waking o s.word.queue) } : Sys T).threads = Function.update s.threads x (.waking o s.word.queue) from rfl, Function.update_same] at h1
          cases h1
      · have hpre : IsOwner s x := by
          rcases hx with h1 | ⟨o', h1⟩
          · rw [show ({ s with word := finalWord (finalOf o), threads := Function.update s.threads t (.waking o s.word.queue) } : Sys T).threads = Function.update s.threads t (.waking o s.word.queue) from rfl, hthreads x hne] at h1
            exact Or.inl h1
          · rw [show ({ s with word := finalWord (finalOf o), threads := Function.update s.threads t (.waking o s.word.queue) } : Sys T).threads = Function.update s.threads t (.waking o s.word.queue) from rfl, hthreads x hne] at h1
            exact Or.inr ⟨o', h1⟩
        exact hne (hInv.owner_unique x t hpre howner)
    refine ⟨?_, ?_, ?_, ?_, ?_, ?_, ?_⟩
    · intro u hu
      exact absurd hu (noOwnerPost u)
    · intro u u' hu hu'
      exact absurd hu (noOwnerPost u)
    · intro u h
      rcases eq_or_ne u t with rfl | hne
      · rw [show ({ s with word := finalWord (finalOf o), threads := Function.update s.threads u (.waking o s.word.queue) } : Sys T).threads = Function.update s.threads u (.waking o s.word.queue) from rfl, Function.update_same] at h
        cases h
      · rw [show ({ s with word := finalWord (finalOf o), threads := Function.update s.threads t (.waking o s.word.queue) } : Sys T).threads = Function.update s.threads t (.waking o s.word.queue) from rfl, hthreads u hne] at h
        exact hInv.success_slot u h
    · intro h
      have : finalOf o = .complete := h
      cases o with
      | success => exact hInv.success_slot t hst
      | failure => cases this
      | panicked m => cases this
    · intro h
      have hpre := hInv.slot_complete h
      rcases hpre with h1 | ⟨u, hu⟩
      · rw [htag] at h1
        cases h1
      · have : u = t := hInv.owner_unique u t (Or.inr ⟨.success, hu⟩) howner
        subst this
        rw [hst] at hu
        injection hu with ho
        subst ho
        exact Or.inl rfl
    · intro u w h
      rcases eq_or_ne u t with rfl | hne
      · rw [show ({ s with word := finalWord (finalOf o), threads := Function.update s.threads u (.waking o s.word.queue) } : Sys T).threads = Function.update s.threads u (.waking o s.word.queue) from rfl, Function.update_same] at h
        cases h
      · rw [show ({ s with word := finalWord (finalOf o), threads := Function.update s.threads t (.waking o s.word.queue) } : Sys T).threads = Function.update s.threads t (.waking o s.word.queue) from rfl, hthreads u hne] at h
        exact hInv.seen_running u w h
    · intro u rest h
      rcases eq_or_ne u t with rfl | hne
      · rw [show ({ s with word := finalWord (finalOf o), threads := Function.update s.threads u (.waking o s.word.queue) } : Sys T).threads = Function.update s.threads u (.waking o s.word.queue) from rfl, Function.update_same] at h
        injection h with ho hrest
        subst ho
        rfl
      · rw [show ({ s with word := finalWord (finalOf o), threads := Function.update s.threads t (.waking o s.word.queue) } : Sys T).threads = Function.update s.threads t (.waking o s.word.queue) from rfl, hthreads u hne] at h
        have := hInv.waking_success u rest h
        rw [htag] at this
        cases this
  | wakeOne t o i rest hst =>
    refine inv_update_aux hInv t _ _ (by simp) (by simp) (by rw [hst]; simp) ?_ ?_
    · intro w hww
      cases hww
    · intro o' rest' hww ho
      injection hww with h1 h2
      subst ho
      subst h1
      exact hInv.waking_success t (i :: rest) hst
  | wakeRetSuccess t v hst hv =>
    refine inv_update_aux hInv t _ _ (by simp) (by simp) (by rw [hst]; simp) ?_ ?_
    · intro w hww
      cases hww
    · intro o rest hww
      cases hww
  | wakeRetFailure t hst =>
    refine inv_update_aux hInv t _ _ (by simp) (by simp) (by rw [hst]; simp) ?_ ?_
    · intro w hww
      cases hww
    · intro o rest hww
      cases hww
  | wakeRetPanicked t m hst =>
    refine inv_update_aux hInv t _ _ (by simp) (by simp) (by rw [hst]; simp) ?_ ?_
    · intro w hww
      cases hww
    · intro o rest hww
      cases hww
  | enqueue t seen hst hw =>
    have hseentag : seen.tag = .running := hInv.seen_running t seen hst
    have hthreads : ∀ u, u ≠ t →
        (Function.update s.threads t TState.parked) u = s.threads u := by
      intro u hu
      simp [Function.update_noteq hu]
    refine ⟨?_, ?_, ?_, ?_, ?_, ?_, ?_⟩
    · intro u hu
      rfl
    · intro u u' hu hu'
      have toPre : ∀ x, IsOwner { s with word := enqueuedWord seen t, nodes := Function.update s.nodes t ⟨some t, false⟩, threads := Function.update s.threads t .parked } x → IsOwner s x := by
        intro x hx
        rcases eq_or_ne x t with rfl | hne
        · rcases hx with h1 | ⟨o, h1⟩
          · rw [show ({ s with word := enqueuedWord seen x, nodes := Function.update s.nodes x ⟨some x, false⟩, threads := Function.update s.threads x .parked } : Sys T).threads = Function.update s.threads x .parked from rfl, Function.update_same] at h1
            cases h1
          · rw [show ({ s with word := enqueuedWord seen x, nodes := Function.update s.nodes x ⟨some x, false⟩, threads := Function.update s.threads x .parked } : Sys T).threads = Function.update s.threads x .parked from rfl, Function.update_same] at h1
            cases h1
        · rcases hx with h1 | ⟨o, h1⟩
          · rw [show ({ s with word := enqueuedWord seen t, nodes := Function.update s.nodes t ⟨some t, false⟩, threads := Function.update s.threads t .parked } : Sys T).threads = Function.update s.threads t .parked from rfl, hthreads x hne] at h1
            exact Or.inl h1
          · rw [show ({ s with word := enqueuedWord seen t, nodes := Function.update s.nodes t ⟨some t, false⟩, threads := Function.update s.threads t .parked } : Sys T).threads = Function.update s.threads t .parked from rfl, hthreads x hne] at h1
            exact Or.inr ⟨o, h1⟩
      exact hInv.owner_unique u u' (toPre u hu) (toPre u' hu')
    · intro u h
      rcases eq_or_ne u t with rfl | hne
      · rw [show ({ s with word := enqueuedWord seen u, nodes := Function.update s.nodes u ⟨some u, false⟩, threads := Function.update s.threads u .parked } : Sys T).threads = Function.update s.threads u .parked from rfl, Function.update_same] at h
        cases h
      · rw [show ({ s with word := enqueuedWord seen t, nodes := Function.update s.nodes t ⟨some t, false⟩, threads := Function.update s.threads t .parked } : Sys T).threads = Function.update s.threads t .parked from rfl, hthreads u hne] at h
        exact hInv.success_slot u h
    · intro h
      cases h
    · intro h
      have hpre := hInv.slot_complete h
      rcases hpre with h1 | ⟨u, hu⟩
      · rw [hw, hseentag] at h1
        cases h1
      · rcases eq_or_ne u t with rfl | hne
        · rw [hst] at hu
          cases hu
        · refine Or.inr ⟨u, ?_⟩
          rw [show ({ s with word := enqueuedWord seen t, nodes := Function.update s.nodes t ⟨some t, false⟩, threads := Function.update s.threads t .parked } : Sys T).threads = Function.update s.threads t .parked from rfl, hthreads u hne]
          exact hu
    · intro u w h
      rcases eq_or_ne u t with rfl | hne
      · rw [show ({ s with word := enqueuedWord seen u, nodes := Function.update s.nodes u ⟨some u, false⟩, threads := Function.update s.threads u .parked } : Sys T).threads = Function.update s.threads u .parked from rfl, Function.update_same] at h
        cases h
      · rw [show ({ s with word := enqueuedWord seen t, nodes := Function.update s.nodes t ⟨some t, false⟩, threads := Function.update s.threads t .parked } : Sys T).threads = Function.update s.threads t .parked from rfl, hthreads u hne] at h
        exact hInv.seen_running u w h
    · intro u rest h
      rcases eq_or_ne u t with rfl | hne
      · rw [show ({ s with word := enqueuedWord seen u, nodes := Function.update s.nodes u ⟨some u, false⟩, threads := Function.update s.threads u .parked } : Sys T).threads = Function.update s.threads u .parked from rfl, Function.update_same] at h
        cases h
      · rw [show ({ s with word := enqueuedWord seen t, nodes := Function.update s.nodes t ⟨some t, false⟩, threads := Function.update s.threads t .parked } : Sys T).threads = Function.update s.threads t .parked from rfl, hthreads u hne] at h
        have := hInv.waking_success u rest h
        rw [hw, hseentag] at this
        cases this
  | enqueueRetry t seen hst hne hw =>
    refine inv_update_aux hInv t _ _ (by simp) (by simp) (by rw [hst]; simp) ?_ ?_
    · intro w hww
      injection hww with h2
      exact h2 ▸ hw
    · intro o rest hww
      cases hww
  | enqueueGiveUp t seen hst hne hw =>
    refine inv_update_aux hInv t _ _ (by simp) (by simp) (by rw [hst]; simp) ?_ ?_
    · intro w hww
      cases hww
    · intro o rest hww
      cases hww
  | unparkCheck t hst hs =>
    refine inv_update_aux hInv t _ _ (by simp) (by simp) (by rw [hst]; simp) ?_ ?_
    · intro w hww
      cases hww
    · intro o rest hww
      cases hww

/-- Every reachable state satisfies the protocol invariant. -/
theorem reachable_inv {comps : Nat → Comp T} {s : Sys T}
    (hr : Reachable comps s) : Inv s := by
  induction hr with
  | refl => exact inv_initSys
  | tail hsteps hstep ih => exact inv_step ih hstep

/-- Tag change of a single step: unchanged, or one of the three protocol
transitions. -/
theorem step_tag {comps : Nat → Comp T} {s s' : Sys T}
    (hInv : Inv s) (h : Step comps s s') :
    s'.word.tag = s.word.tag
    ∨ (s.word.tag = .incomplete ∧ s'.word.tag = .running)
    ∨ (s.word.tag = .running ∧ s'.word.tag = .complete)
    ∨ (s.word.tag = .running ∧ s'.word.tag = .incomplete) := by
  cases h <;> try (left; rfl)
  case casWin t hst hw =>
    right
    left
    refine ⟨?_, rfl⟩
    rw [hw]
    rfl
  case dropSwap t o hst =>
    have htag := hInv.owner_running t (Or.inr ⟨o, hst⟩)
    cases o with
    | success => right; right; left; exact ⟨htag, rfl⟩
    | failure => right; right; right; exact ⟨htag, rfl⟩
    | panicked m => right; right; right; exact ⟨htag, rfl⟩
  case enqueue t seen hst hw =>
    left
    have hrun : seen.tag = .running := hInv.seen_running t seen hst
    rw [hw, hrun]
    rfl

/-- A step from tag COMPLETE leaves the tag COMPLETE. -/
theorem step_complete_terminal {comps : Nat → Comp T} {s s' : Sys T}
    (hInv : Inv s) (h : Step comps s s')
    (hc : s.word.tag = .complete) : s'.word.tag = .complete := by
  cases h <;> try (exact hc)
  case casWin t hst hw =>
    rw [hw] at hc
    cases hc
  case dropSwap t o hst =>
    have := hInv.owner_running t (Or.inr ⟨o, hst⟩)
    rw [this] at hc
    cases hc
  case enqueue t seen hst hw =>
    have hrun : seen.tag = .running := hInv.seen_running t seen hst
    rw [hw, hrun] at hc
    cases hc

/-- A step that moves the tag from RUNNING to INCOMPLETE is the drop swap of
an initializer whose computation did not succeed. -/
theorem step_fail_revert {comps : Nat → Comp T} {s s' : Sys T}
    (_hInv : Inv s) (h : Step comps s s')
    (h1 : s.word.tag = .running) (h2 : s'.word.tag = .incomplete) :
    ∃ t o, s.threads t = .finishing o ∧ o ≠ .success := by
  cases h <;>
    first
    | (exfalso
       have h3 : s.word.tag = Tag.incomplete := h2
       rw [h1] at h3
       cases h3)
    | (exfalso
       have h3 : Tag.running = Tag.incomplete := h2
       cases h3)
    | skip
  case dropSwap t o hst =>
    refine ⟨t, o, hst, ?_⟩
    cases o with
    | success =>
      exfalso
      have h3 : Tag.complete = Tag.incomplete := h2
      cases h3
    | failure => simp
    | panicked m => simp

/-- Nodes outside the detached list are untouched by the wake loop. -/
theorem wakeAll_nodes_not_mem :
    ∀ (q : List Nat) (ns : Nat → Node) (i : Nat), i ∉ q →
      (wakeAll q ns).1 i = ns i := by
  intro q
  induction q with
  | nil =>
    intro ns i hi
    rfl
  | cons j rest ih =>
    intro ns i hi
    have hij : i ≠ j := fun h => hi (h ▸ List.mem_cons_self j rest)
    have hr : i ∉ rest := fun h => hi (List.mem_cons_of_mem j h)
    rw [show (wakeAll (j :: rest) ns).1 = (wakeAll rest (Function.update ns j ⟨none, true⟩)).1 from rfl]
    rw [ih _ i hr, Function.update_noteq hij]

/-- Effect of the wake loop on the nodes of the detached list. -/
theorem wakeAll_nodes_mem :
    ∀ (q : List Nat) (ns : Nat → Node) (i : Nat), i ∈ q →
      (wakeAll q ns).1 i = ⟨none, true⟩ := by
  intro q
  induction q with
  | nil =>
    intro ns i hi
    cases hi
  | cons j rest ih =>
    intro ns i hi
    by_cases hr : i ∈ rest
    · exact ih (Function.update ns j ⟨none, true⟩) i hr
    · have hij : i = j := by
        rcases List.mem_cons.mp hi with h | h
        · exact h
        · exact absurd h hr
      subst hij
      rw [show (wakeAll (i :: rest) ns).1 = (wakeAll rest (Function.update ns i ⟨none, true⟩)).1 from rfl]
      rw [wakeAll_nodes_not_mem rest _ i hr, Function.update_same]

/-- The unpark events of the wake loop: the nodes of the detached list, in
list (most-recently-enqueued-first) order, each with the thread handle it
held when the walk reached it — with no duplicates, the handle it held when
the queue was detached. -/
theorem wakeAll_events :
    ∀ (q : List Nat) (ns : Nat → Node), q.Nodup →
      (wakeAll q ns).2 = q.map (fun i => (i, (ns i).thread)) := by
  intro q
  induction q with
  | nil =>
    intro ns hnd
    rfl
  | cons j rest ih =>
    intro ns hnd
    rw [show (wakeAll (j :: rest) ns).2 = (j, (ns j).thread) :: (wakeAll rest (Function.update ns j ⟨none, true⟩)).2 from rfl]
    rw [List.map_cons]
    have hj : j ∉ rest := (List.nodup_cons.mp hnd).1
    rw [ih _ (List.nodup_cons.mp hnd).2]
    congr 1
    refine List.map_congr_left ?_
    intro i hi
    have hij : i ≠ j := fun h => hj (h ▸ hi)
    rw [Function.update_noteq hij]

/-- A thread in the wake loop can execute it to the end on its own: the
nodes of its detached list all get their handle cleared and their signaled
flag set, and nothing else changes. -/
theorem wake_steps {comps : Nat → Comp T} (t : Nat) (o : Outcome) :
    ∀ (q : List Nat) (s : Sys T), s.threads t = .waking o q →
    ∃ s', Relation.ReflTransGen (Step comps) s s'
      ∧ s'.threads t = .waking o []
      ∧ s'.word = s.word ∧ s'.slot = s.slot
      ∧ (∀ i, i ∈ q → s'.nodes i = ⟨none, true⟩)
      ∧ (∀ i, i ∉ q → s'.nodes i = s.nodes i) := by
  intro q
  induction q with
  | nil =>
    intro s hst
    exact ⟨s, .refl, hst, rfl, rfl, fun i hi => absurd hi (List.not_mem_nil i),
      fun i _ => rfl⟩
  | cons j rest ih =>
    intro s hst
    have hstep : Step comps s
        { s with nodes := Function.update s.nodes j ⟨none, true⟩
                 threads := Function.update s.threads t (.waking o rest) } :=
      Step.wakeOne s t o j rest hst
    have h1 : ({ s with nodes := Function.update s.nodes j ⟨none, true⟩
                        threads := Function.update s.threads t (.waking o rest) } : Sys T).threads t
        = .waking o rest := by
      rw [show ({ s with nodes := Function.update s.nodes j ⟨none, true⟩, threads := Function.update s.threads t (.waking o rest) } : Sys T).threads = Function.update s.threads t (.waking o rest) from rfl, Function.update_same]
    obtain ⟨s', hs', hthread, hword, hslot, hmem, hnot⟩ := ih _ h1
    refine ⟨s', Relation.ReflTransGen.head hstep hs', hthread, hword, hslot, ?_, ?_⟩
    · intro i hi
      by_cases hr : i ∈ rest
      · exact hmem i hr
      · have hij : i = j := by
          rcases List.mem_cons.mp hi with h | h
          · exact h
          · exact absurd h hr
        subst hij
        rw [hnot i hr]
        rw [show ({ s with nodes := Function.update s.nodes i ⟨none, true⟩, threads := Function.update s.threads t (.waking o rest) } : Sys T).nodes = Function.update s.nodes i ⟨none, true⟩ from rfl, Function.update_same]
    · intro i hi
      have hij : i ≠ j := fun h => hi (h ▸ List.mem_cons_self j rest)
      have hr : i ∉ rest := fun h => hi (List.mem_cons_of_mem j h)
      rw [hnot i hr]
      rw [show ({ s with nodes := Function.update s.nodes j ⟨none, true⟩, threads := Function.update s.threads t (.waking o rest) } : Sys T).nodes = Function.update s.nodes j ⟨none, true⟩ from rfl, Function.update_noteq hij]

/-- On a full cell, `get_or_init` returns the stored value without running
its computation and leaves the cell unchanged. -/
theorem getOrInit_full (v : T) (f : Unit → T) :
    getOrInit (fullCell v) f = (SeqRes.ok v, fullCell v, false) := rfl

/-- On the empty cell, `get_or_init` runs its computation, stores the result
and returns it. -/
theorem getOrInit_new (f : Unit → T) :
    getOrInit Cell.new f = (SeqRes.ok (f ()), fullCell (f ()), true) := rfl

/-- A sequence of `get_or_init` calls on a full cell: nothing runs, every
call returns the stored value, the cell never changes. -/
theorem runCalls_full (v : T) (fs : List (Unit → T)) :
    runCalls (fullCell v) fs
      = (fullCell v, fs.map (fun _ => (SeqRes.ok v, false))) := by
  induction fs with
  | nil => rfl
  | cons f fs ih =>
    rw [show runCalls (fullCell v) (f :: fs)
        = ((runCalls (getOrInit (fullCell v) f).2.1 fs).1,
           ((getOrInit (fullCell v) f).1, (getOrInit (fullCell v) f).2.2)
             :: (runCalls (getOrInit (fullCell v) f).2.1 fs).2) from rfl]
    rw [getOrInit_full]
    rw [show ((SeqRes.ok v, fullCell v, false) : SeqRes Empty T × Cell T × Bool).2.1 = fullCell v from rfl]
    rw [ih]
    rfl

/-! ## Claims -/

/-- C1: for every sequence of `get_or_init` calls on one cell, at most one
supplied computation is ever executed, and every call returns (a reference
to) the same single stored value; in particular a call on a cell that
already holds a value returns that value without running its computation. -/
theorem claim1_get_or_init_once (fs : List (Unit → T)) :
    (((runCalls Cell.new fs).2.filter (fun p => p.2)).length ≤ 1)
    ∧ (∀ p ∈ (runCalls Cell.new fs).2,
        ∃ v, (runCalls Cell.new fs).1.get = some v ∧ p.1 = SeqRes.ok v)
    ∧ (∀ (c : Cell T) (v : T) (f : Unit → T), c.get = some v →
        getOrInit c f = (SeqRes.ok v, c, false)) := by
  have hthird : ∀ (c : Cell T) (v : T) (f : Unit → T), c.get = some v →
      getOrInit c f = (SeqRes.ok v, c, false) := by
    intro c v f h
    rw [show getOrInit c f = getOrTryInitFull c (fun u =>
        match Except.ok (f u) with
        | .ok v => CompResult.ok v
        | .error e => CompResult.err e) from rfl]
    rw [show (getOrTryInitFull c fun u => CompResult.ok (f u))
        = match c.get with
          | some v => (SeqRes.ok v, c, false)
          | none =>
            match c.word with
            | ⟨.complete, []⟩ =>
              match c.slot with
              | some v => (SeqRes.ok v, c, false)
              | none => (SeqRes.blocked, c, false)
            | ⟨.incomplete, []⟩ => (SeqRes.ok (f ()), ⟨COMPLETE, some (f ())⟩, true)
            | _ => (SeqRes.blocked, c, false) from rfl]
    rw [h]
  cases fs with
  | nil =>
    refine ⟨by simp [runCalls], ?_, hthird⟩
    intro p hp
    simp [runCalls] at hp
  | cons f fs =>
    have hrun : runCalls Cell.new (f :: fs)
        = (fullCell (f ()), (SeqRes.ok (f ()), true)
            :: fs.map (fun _ => (SeqRes.ok (f ()), false))) := by
      rw [show runCalls Cell.new (f :: fs)
          = ((runCalls (getOrInit Cell.new f).2.1 fs).1,
             ((getOrInit Cell.new f).1, (getOrInit Cell.new f).2.2)
               :: (runCalls (getOrInit Cell.new f).2.1 fs).2) from rfl]
      rw [getOrInit_new]
      rw [show ((SeqRes.ok (f ()), fullCell (f ()), true) : SeqRes Empty T × Cell T × Bool).2.1 = fullCell (f ()) from rfl]
      rw [runCalls_full]
    refine ⟨?_, ?_, hthird⟩
    · rw [hrun]
      have hnil : (fs.map (fun _ => ((SeqRes.ok (f ()) : SeqRes Empty T), false))).filter
          (fun p => p.2) = [] := by
        rw [List.filter_eq_nil_iff]
        intro a ha
        rcases List.mem_map.mp ha with ⟨x, hx, rfl⟩
        simp
      rw [show ((SeqRes.ok (f ()), true) :: fs.map fun _ => (SeqRes.ok (f ()), false)).filter (fun p => p.2)
          = (SeqRes.ok (f ()), true) :: ((fs.map fun _ => ((SeqRes.ok (f ()) : SeqRes Empty T), false)).filter (fun p => p.2)) from rfl]
      rw [hnil]
      simp
    · rw [hrun]
      intro p hp
      refine ⟨f (), rfl, ?_⟩
      rcases List.mem_cons.mp hp with rfl | hp
      · rfl
      · rcases List.mem_map.mp hp with ⟨x, hx, rfl⟩
        rfl

/-- C1 witness: a concrete two-call sequence and a concrete full cell. -/
theorem claim1_witness :
    (((runCalls Cell.new fs0).2.filter (fun p => p.2)).length ≤ 1)
    ∧ (fullCell 92).get = some 92
    ∧ getOrInit (fullCell 92) (fun _ => 1000) = (SeqRes.ok 92, fullCell 92, false) :=
  ⟨(claim1_get_or_init_once fs0).1, rfl,
    (claim1_get_or_init_once fs0).2.2 (fullCell 92) 92 (fun _ => 1000) rfl⟩

/-- C3: on the empty cell, a `get_or_try_init` whose computation returns a
failure value returns exactly that failure value and leaves the cell empty
(word `INCOMPLETE`, slot uninitialized); a subsequent `get_or_try_init`
with a succeeding computation installs its value and returns it. -/
theorem claim3_try_init_failure_reverts (f g : Unit → Except E T) (e : E) (v : T)
    (hf : f () = Except.error e) (hg : g () = Except.ok v) :
    getOrTryInit (Cell.new : Cell T) f = (SeqRes.err e, Cell.new, true)
    ∧ getOrTryInit ((getOrTryInit (Cell.new : Cell T) f).2.1) g
        = (SeqRes.ok v, fullCell v, true) := by
  have h1 : getOrTryInit (Cell.new : Cell T) f = (SeqRes.err e, Cell.new, true) := by
    have h0 : getOrTryInit (Cell.new : Cell T) f
        = match (match f () with
                 | Except.ok v => CompResult.ok v
                 | Except.error e => CompResult.err e : CompResult E T) with
          | CompResult.ok v => (SeqRes.ok v, (⟨COMPLETE, some v⟩ : Cell T), true)
          | CompResult.err e => (SeqRes.err e, (⟨INCOMPLETE, none⟩ : Cell T), true)
          | CompResult.panic m => (SeqRes.panicked m, (⟨INCOMPLETE, none⟩ : Cell T), true) := rfl
    rw [hf] at h0
    exact h0
  have h2 : getOrTryInit (Cell.new : Cell T) g = (SeqRes.ok v, fullCell v, true) := by
    have h0 : getOrTryInit (Cell.new : Cell T) g
        = match (match g () with
                 | Except.ok v => CompResult.ok v
                 | Except.error e => CompResult.err e : CompResult E T) with
          | CompResult.ok v => (SeqRes.ok v, (⟨COMPLETE, some v⟩ : Cell T), true)
          | CompResult.err e => (SeqRes.err e, (⟨INCOMPLETE, none⟩ : Cell T), true)
          | CompResult.panic m => (SeqRes.panicked m, (⟨INCOMPLETE, none⟩ : Cell T), true) := rfl
    rw [hg] at h0
    exact h0
  refine ⟨h1, ?_⟩
  rw [h1]
  exact h2

/-- C3 witness: the spec scenario, `Err("boom")` then `Ok(92)`. -/
theorem claim3_witness :
    fBoom () = Except.error "boom"
    ∧ gOk () = Except.ok 92
    ∧ getOrTryInit (Cell.new : Cell Nat) fBoom = (SeqRes.err "boom", Cell.new, true)
    ∧ getOrTryInit ((getOrTryInit (Cell.new : Cell Nat) fBoom).2.1) gOk
        = (SeqRes.ok 92, fullCell 92, true) :=
  ⟨rfl, rfl, (claim3_try_init_failure_reverts fBoom gOk "boom" 92 rfl rfl).1,
    (claim3_try_init_failure_reverts fBoom gOk "boom" 92 rfl rfl).2⟩

/-- C6: `set v` reports success iff the cell was empty; on a full cell it
fails, hands back `v` unchanged, and leaves the stored value untouched. -/
theorem claim6_set_iff_empty (v : T) (c : Cell T) (h : SeqWF c) :
    ((c.set v).1 = Except.ok () ↔ c.get = none)
    ∧ (∀ w, c.get = some w →
        (c.set v).1 = Except.error v ∧ (c.set v).2.get = some w) := by
  rcases h with rfl | ⟨u, rfl⟩
  · constructor
    · exact ⟨fun _ => rfl, fun _ => rfl⟩
    · intro w hw
      exact absurd hw (by simp [Cell.get, Cell.is_initialized, Cell.new, INCOMPLETE, COMPLETE])
  · constructor
    · constructor
      · intro hok
        exact absurd hok (by simp [Cell.set, getOrInit_full])
      · intro hnone
        exact absurd hnone (by simp [Cell.get, Cell.is_initialized, fullCell])
    · intro w hw
      have huw : u = w := by
        have : some u = some w := by
          rw [show (fullCell u).get = some u from rfl] at hw
          exact hw
        exact Option.some.inj this
      subst huw
      exact ⟨rfl, rfl⟩

/-- C6 witness: setting 9 on a cell holding 5. -/
theorem claim6_witness :
    SeqWF (fullCell (5 : Nat))
    ∧ (((fullCell (5 : Nat)).set 9).1 = Except.ok () ↔ (fullCell (5 : Nat)).get = none)
    ∧ (((fullCell (5 : Nat)).set 9).1 = Except.error 9
        ∧ ((fullCell (5 : Nat)).set 9).2.get = some 5) :=
  ⟨Or.inr ⟨5, rfl⟩,
    (claim6_set_iff_empty 9 (fullCell 5) (Or.inr ⟨5, rfl⟩)).1,
    (claim6_set_iff_empty 9 (fullCell 5) (Or.inr ⟨5, rfl⟩)).2 5 rfl⟩

/-- C8: if `force` is reached with the initializer slot already taken while
the cell is still empty and elects this caller as initializer, the call
panics with the poisoning message instead of returning a value. -/
theorem claim8_force_poisoned (l : SyncLazy T)
    (h1 : l.init = none) (h2 : l.cell = Cell.new) :
    (l.force).1 = SeqRes.panicked poisonMsg := by
  obtain ⟨c, i⟩ := l
  have hc : c = Cell.new := h2
  have hi : i = none := h1
  subst hc
  subst hi
  rfl

/-- C8 witness: a concrete poisoned lazy value. -/
theorem claim8_witness :
    lazyPoisoned.init = none
    ∧ lazyPoisoned.cell = Cell.new
    ∧ (lazyPoisoned.force).1 = SeqRes.panicked poisonMsg :=
  ⟨rfl, rfl, claim8_force_poisoned lazyPoisoned rfl rfl⟩

/-- C9: `into_inner` on a cell holding `v` returns `v` and leaves no
residual state requiring destruction (the remainder's slot is empty); on an
empty cell it returns `None`.  A cell holding `v` is what `set` on a fresh
cell produces. -/
theorem claim9_into_inner (v : T) :
    Cell.into_inner (fullCell v) = some v
    ∧ ((fullCell v).take_inner).2.slot = none
    ∧ Cell.into_inner (Cell.new : Cell T) = none
    ∧ ((Cell.new : Cell T).set v).2 = fullCell v :=
  ⟨rfl, rfl, rfl, rfl⟩

/-- C10: the `From` conversion yields an initialized cell: `get` returns
the value, `into_inner` round-trips it, and a subsequent `set w` fails and
hands `w` back, leaving the cell unchanged. -/
theorem claim10_from_roundtrip (v w : T) :
    (fromValue v).get = some v
    ∧ Cell.into_inner (fromValue v) = some v
    ∧ (fromValue v).set w = (Except.error w, fromValue v) :=
  ⟨rfl, rfl, rfl⟩

/-- C2: if the installed initializer's computation panics, the panic
propagates unchanged to that caller, the word reverts to INCOMPLETE with the
queue detached, and the queue-detach-and-wake step still runs (the
scope-exit cleanup is the unwinding thread's own continuation): executing
the unwinding thread to completion signals (and clears the handle of) every
waiter that was queued at the panic and ends with the caller terminated by
the same panic. -/
theorem claim2_panic_cleanup (comps : Nat → Comp T) (s : Sys T) (t : Nat)
    (m : String) (_hr : Reachable comps s) (hown : s.threads t = .runInit)
    (hc : comps t = .panic m) :
    ∃ s', Relation.ReflTransGen (Step comps) s s'
      ∧ s'.threads t = .done (.panicked m)
      ∧ s'.word = INCOMPLETE
      ∧ (∀ i, i ∈ s.word.queue → s'.nodes i = ⟨none, true⟩) := by
  set s1 : Sys T := s.setThread t (.finishing (.panicked m)) with hs1
  have hstep1 : Step comps s s1 := Step.runPanic s t m hown hc
  have hst1 : s1.threads t = .finishing (.panicked m) := by
    rw [hs1, setThread_threads, Function.update_same]
  set s2 : Sys T :=
    { s1 with word := finalWord (finalOf (.panicked m))
              threads := Function.update s1.threads t
                (.waking (.panicked m) s1.word.queue) } with hs2
  have hstep2 : Step comps s1 s2 := Step.dropSwap s1 t (.panicked m) hst1
  have hst2 : s2.threads t = .waking (.panicked m) s1.word.queue := by
    rw [hs2]
    rw [show ({ s1 with word := finalWord (finalOf (.panicked m)), threads := Function.update s1.threads t (.waking (.panicked m) s1.word.queue) } : Sys T).threads = Function.update s1.threads t (.waking (.panicked m) s1.word.queue) from rfl]
    rw [Function.update_same]
  obtain ⟨s3, hs3, hthr3, hword3, hslot3, hmem3, hnot3⟩ :=
    @wake_steps T comps t (.panicked m) s1.word.queue s2 hst2
  have hstep4 : Step comps s3 (s3.setThread t (.done (.panicked m))) :=
    Step.wakeRetPanicked s3 t m hthr3
  refine ⟨s3.setThread t (.done (.panicked m)),
    Relation.ReflTransGen.head hstep1
      (Relation.ReflTransGen.head hstep2 (hs3.tail hstep4)), ?_, ?_, ?_⟩
  · rw [setThread_threads, Function.update_same]
  · rw [setThread_word, hword3, hs2]
    rfl
  · intro i hi
    rw [setThread_nodes]
    exact hmem3 i hi

/-- C2 witness: thread 0 as installed initializer with a panicking
computation. -/
theorem claim2_witness :
    Reachable comps1 sysB ∧ sysB.threads 0 = .runInit
    ∧ comps1 0 = .panic "boom"
    ∧ (∃ s', Relation.ReflTransGen (Step comps1) sysB s'
        ∧ s'.threads 0 = .done (.panicked "boom")
        ∧ s'.word = INCOMPLETE
        ∧ (∀ i, i ∈ sysB.word.queue → s'.nodes i = ⟨none, true⟩)) := by
  have hthr : sysB.threads 0 = .runInit := by
    rw [show sysB.threads = Function.update sysA.threads 0 TState.runInit from rfl,
      Function.update_same]
  have hchain : Reachable comps1 sysB :=
    Relation.ReflTransGen.tail
      (Relation.ReflTransGen.tail Relation.ReflTransGen.refl
        (Step.loadIncomplete initSys 0 rfl rfl))
      (Step.casWin sysA 0
        (by rw [show sysA.threads = Function.update (@initSys Nat).threads 0 TState.tryCas from rfl, Function.update_same]) rfl)
  exact ⟨hchain, hthr, rfl,
    claim2_panic_cleanup comps1 sysB 0 "boom" hchain hthr rfl⟩

/-- C4: along any reachable step, the tag is unchanged or makes one of the
transitions INCOMPLETE→RUNNING, RUNNING→COMPLETE, RUNNING→INCOMPLETE;
RUNNING→INCOMPLETE happens only at the drop swap of an initializer whose
computation did not succeed; and once COMPLETE the tag never changes again. -/
theorem claim4_tag_transitions (comps : Nat → Comp T) (s s' : Sys T)
    (hr : Reachable comps s) (hs : Step comps s s') :
    (s'.word.tag = s.word.tag
      ∨ (s.word.tag = .incomplete ∧ s'.word.tag = .running)
      ∨ (s.word.tag = .running ∧ s'.word.tag = .complete)
      ∨ (s.word.tag = .running ∧ s'.word.tag = .incomplete))
    ∧ (s.word.tag = .running → s'.word.tag = .incomplete →
        ∃ t o, s.threads t = .finishing o ∧ o ≠ .success)
    ∧ (∀ s'', s.word.tag = .complete →
        Relation.ReflTransGen (Step comps) s s'' → s''.word.tag = .complete) := by
  have hInv := reachable_inv hr
  refine ⟨step_tag hInv hs, fun h1 h2 => step_fail_revert hInv hs h1 h2, ?_⟩
  intro s'' hc h
  induction h with
  | refl => exact hc
  | tail hab hbc ih =>
    exact step_complete_terminal
      (reachable_inv (Relation.ReflTransGen.trans hr hab)) hbc ih

/-- C4 witness: the first load step from the fresh cell. -/
theorem claim4_witness :
    Reachable comps0 (@initSys Nat) ∧ Step comps0 (@initSys Nat) sysA
    ∧ ((sysA.word.tag = (@initSys Nat).word.tag
        ∨ ((@initSys Nat).word.tag = .incomplete ∧ sysA.word.tag = .running)
        ∨ ((@initSys Nat).word.tag = .running ∧ sysA.word.tag = .complete)
        ∨ ((@initSys Nat).word.tag = .running ∧ sysA.word.tag = .incomplete))
      ∧ ((@initSys Nat).word.tag = .running → sysA.word.tag = .incomplete →
          ∃ t o, (@initSys Nat).threads t = .finishing o ∧ o ≠ .success)
      ∧ (∀ s'', (@initSys Nat).word.tag = .complete →
          Relation.ReflTransGen (Step comps0) (@initSys Nat) s'' →
          s''.word.tag = .complete)) :=
  ⟨Relation.ReflTransGen.refl, Step.loadIncomplete initSys 0 rfl rfl,
    claim4_tag_transitions comps0 initSys sysA Relation.ReflTransGen.refl
      (Step.loadIncomplete initSys 0 rfl rfl)⟩

/-- C5 (amended): at every reachable state, a COMPLETE tag implies the slot
holds a value; in quiescent states (no thread between winning the CAS and
its drop swap) the slot holds a value if and only if the tag is COMPLETE
(transiently, the sole initializer has written the slot just before its
swap installs COMPLETE); and a successful initializer past its swap — the
one path that reads the slot other than under an explicit COMPLETE load —
always observes tag COMPLETE. -/
theorem claim5_slot_invariant_amended (comps : Nat → Comp T) (s : Sys T)
    (hr : Reachable comps s) :
    (s.word.tag = .complete → s.slot.isSome)
    ∧ (Quiescent s → (s.slot.isSome ↔ s.word.tag = .complete))
    ∧ (∀ t rest, s.threads t = .waking .success rest →
        s.word.tag = .complete) := by
  have hInv := reachable_inv hr
  refine ⟨hInv.complete_slot, ?_, hInv.waking_success⟩
  intro hq
  constructor
  · intro hsome
    rcases hInv.slot_complete hsome with h | ⟨t, ht⟩
    · exact h
    · exact absurd (Or.inr ⟨.success, ht⟩) (hq t)
  · exact hInv.complete_slot

/-- C5 witness: the fresh cell is reachable and quiescent. -/
theorem claim5_witness :
    Reachable comps0 (@initSys Nat)
    ∧ (((@initSys Nat).word.tag = .complete → (@initSys Nat).slot.isSome)
      ∧ (Quiescent (@initSys Nat) →
          ((@initSys Nat).slot.isSome ↔ (@initSys Nat).word.tag = .complete))
      ∧ (∀ t rest, (@initSys Nat).threads t = .waking .success rest →
          (@initSys Nat).word.tag = .complete)) :=
  ⟨Relation.ReflTransGen.refl,
    claim5_slot_invariant_amended comps0 initSys Relation.ReflTransGen.refl⟩

/-- C5 counterexample: a reachable state — the window between the
initializer's slot write and its drop swap — in which the slot holds a
fully-constructed value while the tag is still RUNNING, refuting the
claimed equivalence at that reachable state. -/
theorem claim5_counterexample :
    Reachable comps0 sysWindow
    ∧ ¬ (sysWindow.slot.isSome ↔ sysWindow.word.tag = .complete) := by
  have hchain : Reachable comps0 sysWindow :=
    Relation.ReflTransGen.tail
      (Relation.ReflTransGen.tail
        (Relation.ReflTransGen.tail Relation.ReflTransGen.refl
          (Step.loadIncomplete initSys 0 rfl rfl))
        (Step.casWin sysA 0
          (by rw [show sysA.threads = Function.update (@initSys Nat).threads 0 TState.tryCas from rfl, Function.update_same]) rfl))
      (Step.runSucceed sysB 0 7
        (by rw [show sysB.threads = Function.update sysA.threads 0 TState.runInit from rfl, Function.update_same]) rfl)
  refine ⟨hchain, ?_⟩
  intro hiff
  have h2 : sysWindow.word.tag = .complete := hiff.mp rfl
  have h3 : Tag.running = Tag.complete := h2
  cases h3

/-- C7: the initializer's `WaiterQueue` drop installs the final state
(COMPLETE on success, INCOMPLETE on failure or panic) with one single
atomic swap that simultaneously detaches the entire current waiter queue;
it then traverses the detached list exactly once in linked order — most
recently enqueued first, since the `wait` CAS links each node in front of
the old head — and for each node clears the stored thread handle, sets its
signaled flag, and wakes the taken handle. -/
theorem claim7_drop_swap_wake (w : Word) (o : Outcome) (ns : Nat → Node)
    (hrun : w.tag = .running) (hnd : w.queue.Nodup) :
    waiterQueueDrop w (finalOf o) ns
      = some (finalWord (finalOf o), wakeAll w.queue ns)
    ∧ (wakeAll w.queue ns).2 = w.queue.map (fun i => (i, (ns i).thread))
    ∧ (∀ i, i ∈ w.queue → (wakeAll w.queue ns).1 i = ⟨none, true⟩)
    ∧ (∀ i, i ∉ w.queue → (wakeAll w.queue ns).1 i = ns i)
    ∧ finalOf .success = .complete
    ∧ finalOf .failure = .incomplete
    ∧ (∀ m, finalOf (.panicked m) = .incomplete)
    ∧ (∀ (w' : Word) (u : Nat), (enqueuedWord w' u).queue = u :: w'.queue) := by
  refine ⟨?_, wakeAll_events w.queue ns hnd,
    fun i hi => wakeAll_nodes_mem w.queue ns i hi,
    fun i hi => wakeAll_nodes_not_mem w.queue ns i hi,
    rfl, rfl, fun m => rfl, fun w' u => rfl⟩
  simp only [waiterQueueDrop, if_pos hrun]

/-- C7 witness: a RUNNING word with two queued waiters, success outcome. -/
theorem claim7_witness :
    w0.tag = .running ∧ w0.queue.Nodup
    ∧ (waiterQueueDrop w0 (finalOf .success) ns0
        = some (finalWord (finalOf .success), wakeAll w0.queue ns0)
      ∧ (wakeAll w0.queue ns0).2 = w0.queue.map (fun i => (i, (ns0 i).thread))
      ∧ (∀ i, i ∈ w0.queue → (wakeAll w0.queue ns0).1 i = ⟨none, true⟩)
      ∧ (∀ i, i ∉ w0.queue → (wakeAll w0.queue ns0).1 i = ns0 i)
      ∧ finalOf .success = .complete
      ∧ finalOf .failure = .incomplete
      ∧ (∀ m, finalOf (.panicked m) = .incomplete)
      ∧ (∀ (w' : Word) (u : Nat), (enqueuedWord w' u).queue = u :: w'.queue)) :=
  ⟨rfl, by decide, claim7_drop_swap_wake w0 .success ns0 rfl (by decide)⟩

end LazyOnce
